import Mathlib

/-!
Verification of the levels-CCA estimation core
(`mindaffectBCI/decoder/levelCCA.py`).

The numeric code is shallowly embedded over exact rationals (`ℚ`):

* numpy vectors become `List ℚ`, numpy matrices become `List (List ℚ)`,
  higher-rank covariance tensors become curried index functions `ℕ → ⋯ → ℚ`
  with the axis sizes carried separately;
* the external linear-algebra kernels that the source calls
  (`numpy.linalg.svd`, `numpy.linalg.pinv`, and `robust_whitener` /
  `Cyy_tyeye_diag2full`, which live in modules outside this repository's
  sources) are passed in as explicit oracle functions; decidable
  "genuineness" predicates, modelled from the spec's contracts for these
  primitives, are checked at the concrete matrices where counterexample
  runs invoke the oracles;
* fallible code returns `Except`: the `ValueError` raised for an unknown
  sub-solver mode, and the `NameError` raised by the `'expgrad'` / `'gd'`
  branches (which reference the name `eta`, not defined in
  `nonneglsopt`'s scope), become error values;
* floating-point arithmetic is idealised as exact rational arithmetic;
  division by zero is the total `ℚ` division (`x / 0 = 0`).
-/

/-- Entry `i` of a numpy 1-d array embedded as a list (0 outside range). -/
def vget (v : List ℚ) (i : ℕ) : ℚ := v.getD i 0

/-- Entry `(i,j)` of a numpy 2-d array embedded as a list of rows. -/
def mget (M : List (List ℚ)) (i j : ℕ) : ℚ := (M.getD i []).getD j 0

/-- Entry `(k,i,j)` of a numpy 3-d array embedded as nested lists. -/
def tget (T : List (List (List ℚ))) (k i j : ℕ) : ℚ :=
  ((T.getD k []).getD i []).getD j 0

/-- Build a length-`n` vector from an index function. -/
def mkVec (n : ℕ) (f : ℕ → ℚ) : List ℚ := (List.range n).map f

/-- Build an `m × n` matrix from an index function. -/
def mkMat (m n : ℕ) (f : ℕ → ℕ → ℚ) : List (List ℚ) :=
  (List.range m).map (fun i => mkVec n (f i))

/-- Finite sum `Σ_{i<n} f i`, the embedding of contractions over one axis. -/
def sumTo (n : ℕ) (f : ℕ → ℚ) : ℚ := ((List.range n).map f).sum

/-- Sum of all entries of a vector (`np.sum`). -/
def listSum (v : List ℚ) : ℚ := v.sum

/-- The `n × n` identity matrix. -/
def idMat (n : ℕ) : List (List ℚ) := mkMat n n (fun i j => if i = j then 1 else 0)

/-- Matrix product with explicit dimensions (`A : m × k`, `B : k × n`). -/
def matMulD (m k n : ℕ) (A B : List (List ℚ)) : List (List ℚ) :=
  mkMat m n (fun i j => sumTo k (fun a => mget A i a * mget B a j))

/-- Transpose with explicit dimensions (`M : m × n`). -/
def transposeD (m n : ℕ) (M : List (List ℚ)) : List (List ℚ) :=
  mkMat n m (fun i j => mget M j i)

/-- The embedding of `np.all(C_yy == 0)`: every stored entry is zero. -/
def allZeroM (M : List (List ℚ)) : Prop := ∀ r ∈ M, ∀ x ∈ r, x = 0

instance (M : List (List ℚ)) : Decidable (allZeroM M) := by
  unfold allZeroM; infer_instance

/-- Sub-solver mode string `'ls'` of `nonneglsopt`. -/
def lsStr : String := "ls"

/-- Sub-solver mode string `'lspos'` of `nonneglsopt`. -/
def lsposStr : String := "lspos"

/-- Sub-solver mode string `'expgrad'` of `nonneglsopt`. -/
def expgradStr : String := "expgrad"

/-- Sub-solver mode string `'gd'` of `nonneglsopt`. -/
def gdStr : String := "gd"

/-- Sub-solver mode string `'mu'` of `nonneglsopt`. -/
def muStr : String := "mu"

/-- Sub-solver mode string `'irwls'` of `nonneglsopt`. -/
def irwlsStr : String := "irwls"

/-- Sub-solver mode string `'negridge'` of `nonneglsopt` (the default). -/
def negridgeStr : String := "negridge"

/-- Runtime errors that `nonneglsopt` can raise: the `NameError` caused by
the undefined name `eta` in the `'expgrad'` / `'gd'` branches, and the
`ValueError('unknown optimization type: ...')` for an unrecognised mode. -/
inductive NNErr where
  | nameErr : NNErr
  | unknownOpt : String → NNErr
deriving DecidableEq

instance {α β : Type} [DecidableEq α] [DecidableEq β] : DecidableEq (Except α β) := fun x y =>
  match x, y with
  | .error a, .error b => decidable_of_iff (a = b) (by simp)
  | .error _, .ok _ => isFalse (by simp)
  | .ok _, .error _ => isFalse (by simp)
  | .ok a, .ok b => decidable_of_iff (a = b) (by simp)

/-- The quadratic objective `C_xx - 2*C_yx@s + s.T@C_yy@s` over the first
`nn` coordinates (all arrays have length `nn` in the source). -/
def objQ (nn : ℕ) (cxx : ℚ) (cyx : List ℚ) (cyy : List (List ℚ)) (s : List ℚ) : ℚ :=
  cxx - 2 * sumTo nn (fun i => vget cyx i * vget s i) +
    sumTo nn (fun i => sumTo nn (fun j => vget s i * mget cyy i j * vget s j))

/-- One update of the selected sub-solver inside `nonneglsopt`'s loop
(source lines 189-209).  `cyy` is the ridged Gram matrix, `pinv` embeds
`np.linalg.pinv`.  The `'expgrad'` and `'gd'` branches evaluate the name
`eta`, which is not defined in the function's scope (it is a parameter of
`levelsCCA_cov` that is never passed down), so they raise `NameError`. -/
def nnUpdate (nn : ℕ) (pinv : List (List ℚ) → List (List ℚ)) (cyx : List ℚ)
    (cyy : List (List ℚ)) (opt : String) (s : List ℚ) : Except NNErr (List ℚ) :=
  if opt = lsStr then
    .ok (mkVec nn (fun i => sumTo nn (fun j => mget (pinv cyy) i j * vget cyx j)))
  else if opt = lsposStr then
    .ok (mkVec nn (fun i =>
      max (sumTo nn (fun j => mget (pinv cyy) i j * vget cyx j)) 0))
  else if opt = expgradStr then
    .error .nameErr
  else if opt = gdStr then
    .error .nameErr
  else if opt = muStr then
    .ok (mkVec nn (fun i =>
      vget s i * |vget cyx i| /
        (sumTo nn (fun j => mget cyy i j * vget s j) + 1 / 10 ^ 6)))
  else if opt = irwlsStr ∨ opt = negridgeStr then
    .ok (mkVec nn (fun i =>
      sumTo nn (fun j =>
        mget (pinv (mkMat nn nn (fun a b =>
          mget cyy a b +
            (if a = b ∧ vget s a < 0 then
              sumTo nn (fun q => mget cyy q q) / (nn : ℚ) * 10
            else 0)))) i j * vget cyx j)))
  else .error (.unknownOpt opt)

/-- The iteration of `nonneglsopt` (source lines 187-218): update `s`,
project onto the sum constraint with the `eps` shift, recompute `J`, and
stop early once `|oJ - J| < tol`.  The fuel argument is the remaining
number of `range(max_iter)` iterations. -/
def nnLoop (nn : ℕ) (pinv : List (List ℚ) → List (List ℚ)) (eps tol cxx : ℚ)
    (cyx : List ℚ) (cyy : List (List ℚ)) (opt : String) :
    ℕ → List ℚ → ℚ → Except NNErr (List ℚ)
  | 0, s, _ => .ok s
  | fuel + 1, s, J =>
    match nnUpdate nn pinv cyx cyy opt s with
    | .error e => .error e
    | .ok s1 =>
      let s2 := mkVec nn (fun i =>
        (vget s1 i + eps) / listSum (mkVec nn (fun j => vget s1 j + eps)))
      let J1 := objQ nn cxx cyx cyy s2
      if |J - J1| < tol then .ok s2
      else nnLoop nn pinv eps tol cxx cyx cyy opt fuel s2 J1

/-- The constrained weight solver `nonneglsopt` (source lines 176-224).
`pinv` embeds `np.linalg.pinv`; the remaining arguments mirror the Python
signature.  A `None` mode defaults to `'negridge'`; an all-zero Gram
matrix returns the input unchanged; otherwise a ridge is added to a copy
of `C_yy`, the iterative sub-solver runs, and on return negative or zero
entries are clamped to `1e-6` and the vector renormalised to sum 1. -/
def nonneglsopt (pinv : List (List ℚ) → List (List ℚ)) (cxx : ℚ) (cyx : List ℚ)
    (cyy : List (List ℚ)) (s_y : List ℚ) (syopt : Option String)
    (maxIter : ℕ) (tol ridge eps : ℚ) : Except NNErr (List ℚ) :=
  let opt := syopt.getD negridgeStr
  if allZeroM cyy then .ok s_y
  else
    let nn := cyy.length
    let cyyR := mkMat nn nn (fun i j =>
      mget cyy i j + (if i = j then ridge else 0))
    let J0 := objQ nn cxx cyx cyyR s_y
    match nnLoop nn pinv eps tol cxx cyx cyyR opt maxIter s_y J0 with
    | .error e => .error e
    | .ok s1 =>
      let s2 := mkVec nn (fun i => max (1 / 10 ^ 6) (vget s1 i))
      .ok (mkVec nn (fun i => vget s2 i / listSum s2))

/-- `nonneglsopt` with the Python default parameters
`max_iter=30, tol=1e-4, ridge=1e-4, eps=1e-3`, as invoked by
`levelsCCA_cov`. -/
def nonneglsoptD (pinv : List (List ℚ) → List (List ℚ)) (cxx : ℚ) (cyx : List ℚ)
    (cyy : List (List ℚ)) (s_y : List ℚ) (syopt : Option String) :
    Except NNErr (List ℚ) :=
  nonneglsopt pinv cxx cyx cyy s_y syopt 30 (1 / 10 ^ 4) (1 / 10 ^ 4) (1 / 10 ^ 3)

/-- A concrete embedding of `np.linalg.pinv` that is exact on the diagonal
matrices arising in the concrete runs below (the Moore-Penrose inverse of
a diagonal matrix inverts the nonzero diagonal entries). -/
def pinvDiag (M : List (List ℚ)) : List (List ℚ) :=
  mkMat M.length M.length (fun i j =>
    if i = j then (if mget M i i = 0 then 0 else 1 / mget M i i) else 0)

/-- The mode values (including `None`) accepted by `nonneglsopt`. -/
def supportedOpts : List (Option String) :=
  [none, some lsStr, some lsposStr, some expgradStr, some gdStr,
   some muStr, some irwlsStr, some negridgeStr]

/-- The mode strings accepted by `nonneglsopt`. -/
def supportedStrs : List String :=
  [lsStr, lsposStr, expgradStr, gdStr, muStr, irwlsStr, negridgeStr]

/-- An unknown sub-solver mode string used in concrete runs. -/
def bogusStr : String := "frobnicate"

/-- `np.argsort(l)[::-1]`: indices of `l` ordered by value descending.
The source argsorts ascending and reverses; we sort descending directly.
Tie order between equal values is solver-determined in the source and not
significant, so a stable insertion sort is used here. -/
def argsortDesc (l : List ℚ) : List ℕ :=
  List.insertionSort (fun i j => l.getD j 0 ≤ l.getD i 0) (List.range l.length)

/-- Source lines 112-117: the indices of the retained CCA components:
argsort the singular values descending and keep the first
`min(len(l), rank)` of them (the guard against `rank` exceeding the
effective dimension). -/
def selectTopRank (rank : ℕ) (l : List ℚ) : List ℕ :=
  (argsortDesc l).take (min l.length rank)

/-- `np.max` of a 1-d array (`0` for the empty array, on which the source
would raise). -/
def listMax : List ℚ → ℚ
  | [] => 0
  | x :: xs => xs.foldl max x

/-- `np.min` of a 1-d array (`0` for the empty array). -/
def listMin : List ℚ → ℚ
  | [] => 0
  | x :: xs => xs.foldl min x

/-- Source line 169: the relative component weights
`l_k / np.max(l_k)` when the maximum is positive, else all ones. -/
def relScale (l : List ℚ) : List ℚ :=
  if 0 < listMax l then l.map (fun x => x / listMax l) else l.map (fun _ => 1)

/-- Scale row `k` of a 2-d array by factor `f k` (numpy broadcasting
`W * a[:, np.newaxis]`). -/
def scaleRows (f : List ℚ) (W : List (List ℚ)) : List (List ℚ) :=
  List.zipWith (fun a row => row.map (fun x => a * x)) f W

/-- Scale slab `k` of a 3-d array by factor `f k` (numpy broadcasting
`R * a[:, np.newaxis, np.newaxis]`). -/
def scaleRows3 (f : List ℚ) (R : List (List (List ℚ))) : List (List (List ℚ)) :=
  List.zipWith (fun a Rk => Rk.map (fun row => row.map (fun x => a * x))) f R

/-- Source lines 168-171: after the loop, rescale `W` and `R` per component
by the square root of the relative singular value.  `sq` embeds the
floating-point `np.sqrt`. -/
def rescaleWR (sq : ℚ → ℚ) (l : List ℚ) (W : List (List ℚ))
    (R : List (List (List ℚ))) : List (List ℚ) × List (List (List ℚ)) :=
  (scaleRows ((relScale l).map sq) W, scaleRows3 ((relScale l).map sq) R)

/-- Stated from the claim wording of C8, for comparison with `rescaleWR`:
the per-component scale factors are `sq (l_k / max l)`, or all `1` when the
maximum retained singular value is zero. -/
def claimFactors (sq : ℚ → ℚ) (l : List ℚ) : List ℚ :=
  if listMax l = 0 then List.replicate l.length 1
  else l.map (fun x => sq (x / listMax l))

/-- Index of the first occurrence of the maximal entry of `l`. -/
def idxOfMax (l : List ℚ) : ℕ := l.indexOf (listMax l)

/-- Modelled from the spec: the tensor expansion primitive
`Cyy_tyeye_diag2full` lives in `updateSummaryStatistics`, outside this
repository's sources.  Section 4.2 of the spec: entry `(y,e,t,z,f,u)` of
the expanded tensor is the compressed entry at lag-difference `t-u` when
`|t-u|` is inside the stored range and zero otherwise, with the negative
lag-differences given by the covariance symmetry
`full[y,e,t,z,f,u] = full[z,f,u,y,e,t]`. -/
def Cyy_tyeye_diag2full (tau : ℕ) (C : ℕ → ℕ → ℕ → ℕ → ℕ → ℚ) :
    ℕ → ℕ → ℕ → ℕ → ℕ → ℕ → ℚ :=
  fun y e t z f u =>
    if u ≤ t then (if t - u < tau then C (t - u) y e z f else 0)
    else (if u - t < tau then C (u - t) z f y e else 0)

/-- The arguments of one `levelsCCA_cov` run: axis sizes, the three input
covariance structures, the solver configuration, and the external
linear-algebra oracles (`whitenX`/`whitenY` embed the two partially
applied `robust_whitener` calls, `svdO` embeds `np.linalg.svd` with
`full_matrices=False`, `pinv` embeds `np.linalg.pinv`, `sq` embeds
`np.sqrt`). -/
structure LCCtx where
  nY : ℕ
  nE : ℕ
  tau : ℕ
  nD : ℕ
  Cxx : List (List ℚ)
  Cyx : ℕ → ℕ → ℕ → ℕ → ℚ
  CyyT : ℕ → ℕ → ℕ → ℕ → ℕ → ℚ
  rank : ℕ
  tol : ℚ
  maxIter : ℕ
  syopt : Option String
  whitenX : List (List ℚ) → List (List ℚ)
  whitenY : List (List ℚ) → List (List ℚ)
  svdO : List (List ℚ) → List (List ℚ) × List ℚ × List (List ℚ)
  pinv : List (List ℚ) → List (List ℚ)
  sq : ℚ → ℚ

/-- The loop state of `levelsCCA_cov`: the weight vector `S_y`, the last
objective `J`, the recorded trace `Js`, the last iteration's filters,
responses, retained singular values and reduced statistics, the two
convergence deltas, and the number of completed iterations. -/
structure LCState where
  S : List ℚ
  J : ℚ
  Jpre : ℚ
  wCxxw : ℚ
  rCyxw : List ℚ
  rCyyr : List (List ℚ)
  trace : List (ℚ × ℚ)
  Wl : List (List ℚ)
  Rl : List (List (List ℚ))
  ll : List ℚ
  deltaS : ℚ
  deltaJ : ℚ
  iters : ℕ
deriving DecidableEq

/-- Source line 81: the objective sentinel `J = 1e9` set before the first
iteration. -/
def levelsCCA_initJ : ℚ := 10 ^ 9

/-- Source lines 88-89: the initial weight vector: the caller's seed if
supplied, else the uniform vector `np.ones(nY)/nY`. -/
def levelsCCA_initS (nY : ℕ) (seed : Option (List ℚ)) : List ℚ :=
  seed.getD (List.replicate nY (1 / (nY : ℚ)))

/-- One iteration of the `levelsCCA_cov` main loop (source lines 91-159):
contract with the current `S_y`, whiten the reduced temporal side, SVD the
doubly-whitened cross matrix, keep the top-rank components, map back
through the whiteners, recompute the reduced statistics, solve for the new
`S_y`, renormalise it, and record the pre/post objectives and deltas.
`CyyF` is the expanded temporal covariance, `CyxW` the pre-whitened cross
covariance and `isqrtCxx` the spatial whitener, all computed once outside
the loop; `rankA` is the normalised rank `max(1, rank)`. -/
def lcStep (c : LCCtx) (CyyF : ℕ → ℕ → ℕ → ℕ → ℕ → ℕ → ℚ)
    (CyxW : ℕ → ℕ → ℕ → ℕ → ℚ) (isqrtCxx : List (List ℚ)) (rankA : ℕ)
    (st : LCState) : Except NNErr LCState :=
  let oS := st.S
  let oJ := st.J
  let net := c.nE * c.tau
  let sCyys := mkMat net net (fun a b =>
    sumTo c.nY (fun y => sumTo c.nY (fun z =>
      vget oS y * CyyF y (a / c.tau) (a % c.tau) z (b / c.tau) (b % c.tau) *
        vget oS z)))
  let sCyxW := mkMat net c.nD (fun a d =>
    sumTo c.nY (fun y => vget oS y * CyxW y (a / c.tau) (a % c.tau) d))
  let isqrtCyy := c.whitenY sCyys
  let M2 := mkMat net c.nD (fun b d =>
    sumTo net (fun a => mget isqrtCyy a b * mget sCyxW a d))
  let svdRes := c.svdO M2
  let U := svdRes.1
  let l := svdRes.2.1
  let V := svdRes.2.2
  let sel := selectTopRank rankA l
  let r := sel.length
  let lsel := sel.map (fun i => vget l i)
  let Rket := sel.map (fun i => mkMat c.nE c.tau (fun e t => mget U (e * c.tau + t) i))
  let Wsel := sel.map (fun i => mkVec c.nD (fun d => mget V i d))
  let Rp := Rket.map (fun Rk => mkMat c.nE c.tau (fun f u =>
    sumTo c.nE (fun e => sumTo c.tau (fun t =>
      mget Rk e t * mget isqrtCyy (e * c.tau + t) (f * c.tau + u)))))
  let Wp := Wsel.map (fun Wk => mkVec c.nD (fun f =>
    sumTo c.nD (fun d => vget Wk d * mget isqrtCxx d f)))
  let wCxxw := sumTo r (fun k => sumTo c.nD (fun d => sumTo c.nD (fun e =>
    mget Wp k d * mget c.Cxx d e * mget Wp k e)))
  let rCyyr := mkMat c.nY c.nY (fun y z =>
    sumTo r (fun k => sumTo c.nE (fun e => sumTo c.tau (fun t =>
      sumTo c.nE (fun f => sumTo c.tau (fun u =>
        tget Rp k e t * CyyF y e t z f u * tget Rp k f u))))))
  let rCyxw := mkVec c.nY (fun y =>
    sumTo r (fun k => sumTo c.nE (fun e => sumTo c.tau (fun t =>
      sumTo c.nD (fun d => tget Rp k e t * c.Cyx y e t d * mget Wp k d)))))
  let Jpre := objQ c.nY wCxxw rCyxw rCyyr oS
  match nonneglsoptD c.pinv wCxxw rCyxw rCyyr oS c.syopt with
  | .error e => .error e
  | .ok S1 =>
    let S2 := mkVec c.nY (fun i => vget S1 i / listSum S1)
    let J1 := objQ c.nY wCxxw rCyxw rCyyr S2
    let dS := sumTo c.nY (fun i => |vget S2 i - vget oS i|)
    let dJ := |J1 - oJ|
    .ok { S := S2, J := J1, Jpre := Jpre, wCxxw := wCxxw, rCyxw := rCyxw,
          rCyyr := rCyyr, trace := st.trace ++ [(Jpre, J1)], Wl := Wp,
          Rl := Rp, ll := lsel, deltaS := dS, deltaJ := dJ,
          iters := st.iters + 1 }

/-- The `for iter in range(max_iter)` loop of `levelsCCA_cov` with the
convergence break at source line 157: stop at the first iteration boundary
where `deltaS_y < tol` or `deltaJ < tol`, or when the fuel (remaining
iterations) is exhausted. -/
def lcLoop (c : LCCtx) (CyyF : ℕ → ℕ → ℕ → ℕ → ℕ → ℕ → ℚ)
    (CyxW : ℕ → ℕ → ℕ → ℕ → ℚ) (isqrtCxx : List (List ℚ)) (rankA : ℕ) :
    ℕ → LCState → Except NNErr LCState
  | 0, st => .ok st
  | fuel + 1, st =>
    match lcStep c CyyF CyxW isqrtCxx rankA st with
    | .error e => .error e
    | .ok st1 =>
      if st1.deltaS < c.tol ∨ st1.deltaJ < c.tol then .ok st1
      else lcLoop c CyyF CyxW isqrtCxx rankA fuel st1

/-- The result of a `levelsCCA_cov` run: the returned `(J, W, R, S_y)`
plus, for observability, the iteration count, the recorded `Js` trace and
the unscaled last-iteration filters/responses/singular values. -/
structure LCResult where
  J : ℚ
  W : List (List ℚ)
  R : List (List (List ℚ))
  S_y : List ℚ
  iters : ℕ
  trace : List (ℚ × ℚ)
  Wlast : List (List ℚ)
  Rlast : List (List (List ℚ))
  llast : List ℚ
deriving DecidableEq

/-- The main alternating optimizer `levelsCCA_cov` (source lines 29-173):
normalise the rank, expand the compressed temporal covariance, whiten the
spatial side once, pre-whiten the cross covariance, run the alternating
loop from the uniform (or seeded) weighting, and finally rescale `W`/`R`
by the relative singular values.  The tuple-broadcasting of `reg`, `CCA`
and `rcond` (source lines 58-63) is absorbed into the two partially
applied whitener oracles; the quantity `isqrtCxxCxxisqrtCxx_dd` computed
at source line 79 is never read afterwards and is omitted. -/
def levelsCCA_cov (c : LCCtx) (seed : Option (List ℚ)) : Except NNErr LCResult :=
  let rankA := max 1 c.rank
  let CyyF := Cyy_tyeye_diag2full c.tau c.CyyT
  let isqrtCxx := c.whitenX c.Cxx
  let CyxW := fun y e t f =>
    sumTo c.nD (fun d => c.Cyx y e t d * mget isqrtCxx d f)
  let st0 : LCState :=
    { S := levelsCCA_initS c.nY seed, J := levelsCCA_initJ, Jpre := 0,
      wCxxw := 0, rCyxw := [], rCyyr := [], trace := [], Wl := [], Rl := [],
      ll := [], deltaS := 0, deltaJ := 0, iters := 0 }
  match lcLoop c CyyF CyxW isqrtCxx rankA c.maxIter st0 with
  | .error e => .error e
  | .ok st =>
    let WR := rescaleWR c.sq st.ll st.Wl st.Rl
    .ok { J := st.J, W := WR.1, R := WR.2, S_y := st.S, iters := st.iters,
          trace := st.trace, Wlast := st.Wl, Rlast := st.Rl, llast := st.ll }

/-- Modelled from the spec: the whitening contract of section 4.1
(`robust_whitener` lives in `multipleCCA`, outside this repository's
sources): the returned `W` satisfies `W^T C W = I` on the retained
subspace; for the full-rank matrices used in the concrete runs this is
exactly the identity. -/
def whitenerOK (C W : List (List ℚ)) : Prop :=
  matMulD C.length C.length C.length (transposeD C.length C.length W)
      (matMulD C.length C.length C.length C W) = idMat C.length

instance (C W : List (List ℚ)) : Decidable (whitenerOK C W) := by
  unfold whitenerOK; infer_instance

/-- The contract of `np.linalg.svd(M, full_matrices=False)` for an
`m × n` input: `min(m,n)` nonnegative singular values in descending
order, orthonormal columns of `U`, orthonormal rows of `V`, and
`U @ diag(l) @ V = M`. -/
def svdOK (m n : ℕ) (M : List (List ℚ))
    (res : List (List ℚ) × List ℚ × List (List ℚ)) : Prop :=
  res.2.1.length = min m n ∧
  (∀ x ∈ res.2.1, 0 ≤ x) ∧
  res.2.1.Sorted (fun a b => b ≤ a) ∧
  matMulD (min m n) m (min m n) (transposeD m (min m n) res.1) res.1 =
    idMat (min m n) ∧
  matMulD (min m n) n (min m n) res.2.2 (transposeD (min m n) n res.2.2) =
    idMat (min m n) ∧
  matMulD m (min m n) n res.1
      (matMulD (min m n) (min m n) n
        (mkMat (min m n) (min m n) (fun i j => if i = j then vget res.2.1 i else 0))
        res.2.2) = M

instance (m n : ℕ) (M : List (List ℚ))
    (res : List (List ℚ) × List ℚ × List (List ℚ)) :
    Decidable (svdOK m n M res) := by
  unfold svdOK; infer_instance

/-- The contract of `np.linalg.pinv` at an invertible matrix: the result
is the two-sided inverse. -/
def pinvOK (C P : List (List ℚ)) : Prop :=
  matMulD C.length C.length C.length P C = idMat C.length

instance (C P : List (List ℚ)) : Decidable (pinvOK C P) := by
  unfold pinvOK; infer_instance

/-- The caller-owned arrays that `nonneglsopt` receives by reference
(numpy arrays are passed by reference; `C_xx` is a Python scalar and is
passed by value). -/
structure NNStore where
  aCyx : List ℚ
  aCyy : List (List ℚ)
  aS : List ℚ
deriving DecidableEq

/-- Store-passing version of `nonneglsopt`.  Every numpy statement of the
source either rebinds a local name or allocates a fresh array — in
particular line 184 reads `C_yy = C_yy.copy() + np.eye(...)*ridge`, so
the ridge is added to a copy and the caller's matrix is never written.
The returned store records that no input array was mutated. -/
def nonneglsoptSt (pinv : List (List ℚ) → List (List ℚ)) (cxx : ℚ)
    (st : NNStore) (syopt : Option String) (maxIter : ℕ) (tol ridge eps : ℚ) :
    NNStore × Except NNErr (List ℚ) :=
  let opt := syopt.getD negridgeStr
  if allZeroM st.aCyy then (st, .ok st.aS)
  else
    let nn := st.aCyy.length
    let cyyR := mkMat nn nn (fun i j =>
      mget st.aCyy i j + (if i = j then ridge else 0))
    let J0 := objQ nn cxx st.aCyx cyyR st.aS
    (st, match nnLoop nn pinv eps tol cxx st.aCyx cyyR opt maxIter st.aS J0 with
      | .error e => .error e
      | .ok s1 =>
        let s2 := mkVec nn (fun i => max (1 / 10 ^ 6) (vget s1 i))
        .ok (mkVec nn (fun i => vget s2 i / listSum s2)))

/-- The caller-owned covariance arrays that `levelsCCA_cov` receives by
reference. -/
structure LCStore where
  aCxx : List (List ℚ)
  aCyx : ℕ → ℕ → ℕ → ℕ → ℚ
  aCyyT : ℕ → ℕ → ℕ → ℕ → ℕ → ℚ

/-- Store-passing version of `levelsCCA_cov`.  Every statement of the
optimizer reads the input covariances and allocates fresh arrays
(`einsum`, `reshape`, `svd` results); the mutated quantities `S_y`, `J`
and the trace `Js` are function-local (they live in `lcLoop`'s state, not
in the store), so the store is returned untouched. -/
def levelsCCA_covSt (c : LCCtx) (st : LCStore) (seed : Option (List ℚ)) :
    LCStore × Except NNErr LCResult :=
  let cR : LCCtx := { c with Cxx := st.aCxx, Cyx := st.aCyx, CyyT := st.aCyyT }
  let rankA := max 1 cR.rank
  let CyyF := Cyy_tyeye_diag2full cR.tau cR.CyyT
  let isqrtCxx := cR.whitenX cR.Cxx
  let CyxW := fun y e t f =>
    sumTo cR.nD (fun d => cR.Cyx y e t d * mget isqrtCxx d f)
  let st0 : LCState :=
    { S := levelsCCA_initS cR.nY seed, J := levelsCCA_initJ, Jpre := 0,
      wCxxw := 0, rCyxw := [], rCyyr := [], trace := [], Wl := [], Rl := [],
      ll := [], deltaS := 0, deltaJ := 0, iters := 0 }
  (st, match lcLoop cR CyyF CyxW isqrtCxx rankA cR.maxIter st0 with
    | .error e => .error e
    | .ok stl =>
      let WR := rescaleWR cR.sq stl.ll stl.Wl stl.Rl
      .ok { J := stl.J, W := WR.1, R := WR.2, S_y := stl.S, iters := stl.iters,
            trace := stl.trace, Wlast := stl.Wl, Rlast := stl.Rl,
            llast := stl.ll })

/-- The sub-solver modes whose update rule completes without raising
(`'expgrad'` and `'gd'` raise `NameError` because `eta` is undefined in
`nonneglsopt`'s scope). -/
def completingOpts : List (Option String) :=
  [none, some lsStr, some lsposStr, some muStr, some irwlsStr, some negridgeStr]

/-- The mode strings (after the `None`-to-`'negridge'` default) whose
update rule completes without raising. -/
def completingStrs : List String :=
  [lsStr, lsposStr, muStr, irwlsStr, negridgeStr]

/-- The whitening oracle used in the concrete runs below: exact
inverse-square-roots for the full-rank matrices `[[1]]` and `[[4]]`
encountered there, and the degenerate all-zero whitener otherwise (the
spec's fallback when every eigenvalue is dropped). -/
def ceWhiten : List (List ℚ) → List (List ℚ) := fun M =>
  if M = [[1]] then [[1]]
  else if M = [[4]] then [[1 / 2]]
  else [[0]]

/-- The SVD oracle used in the concrete runs below: on the `1 × 1`
matrices encountered there (all with nonnegative entry `x`), the exact
decomposition `([[1]], [x], [[1]])`. -/
def ceSvd : List (List ℚ) → List (List ℚ) × List ℚ × List (List ℚ) :=
  fun M => ([[1]], [mget M 0 0], [[1]])

/-- A square-root oracle placeholder for runs whose claims do not touch
the final rescaling. -/
def sqId : ℚ → ℚ := fun q => q

/-- A square-root oracle that is exact on the values used by the C8
concrete instantiation. -/
def sqW : ℚ → ℚ := fun q => if q = 1 then 1 else if q = 1 / 4 then 1 / 2 else 0

/-- Concrete run refuting monotonicity of the weight update (one output,
all covariance entries 1, seeded with the un-normalised weight `[2]`):
in iteration 1 the reduced statistics are `wCxxw = 1`,
`rCyxw = [1/2]`, `rCyyr = [[1/4]]`, so `J_pre = 0`, while the solver
returns `S_y = [1]` giving `J_post = 1/4 > J_pre`. -/
def ctxC2 : LCCtx :=
  { nY := 1, nE := 1, tau := 1, nD := 1,
    Cxx := [[1]],
    Cyx := fun _ _ _ _ => 1,
    CyyT := fun _ _ _ _ _ => 1,
    rank := 1, tol := 1 / 10 ^ 3, maxIter := 100, syopt := none,
    whitenX := ceWhiten, whitenY := ceWhiten, svdO := ceSvd,
    pinv := pinvDiag, sq := sqId }

/-- The run of `ctxC2` seeded with `[2]`. -/
def c2run : Except NNErr LCResult := levelsCCA_cov ctxC2 (some [2])

/-- A default `LCResult` used only to extract fields from a run already
known to have succeeded. -/
def emptyLCResult : LCResult :=
  { J := 0, W := [], R := [], S_y := [], iters := 0, trace := [],
    Wlast := [], Rlast := [], llast := [] }

/-- The `(J_pre, J_post)` pair recorded in the trace for iteration 1 of
the `ctxC2` run. -/
def c2pair : ℚ × ℚ := (c2run.toOption.getD emptyLCResult).trace.getD 0 (0, 0)

/-- Concrete run refuting "tol=1e9 stops after exactly one iteration":
all-zero covariances (degenerate whiteners per the spec's fallback) and
the huge caller seed `[2e9]`.  After iteration 1 the normalised weight is
`[1]`, so `deltaS_y = 2e9 - 1 ≥ tol`, and `J = 0` so
`deltaJ = |0 - 1e9| = 1e9`, which is not `< tol`; the loop therefore runs
a second iteration. -/
def ctxC3z : LCCtx :=
  { nY := 1, nE := 1, tau := 1, nD := 1,
    Cxx := [[0]],
    Cyx := fun _ _ _ _ => 0,
    CyyT := fun _ _ _ _ _ => 0,
    rank := 1, tol := 10 ^ 9, maxIter := 100, syopt := none,
    whitenX := fun _ => [[0]], whitenY := fun _ => [[0]], svdO := ceSvd,
    pinv := pinvDiag, sq := sqId }

/-- The run of `ctxC3z` seeded with `[2 * 10^9]`. -/
def c3run : Except NNErr LCResult := levelsCCA_cov ctxC3z (some [2 * 10 ^ 9])

/-- An all-zero-input context with configurable output count and
tolerance, used to instantiate the hypothesis-bearing theorems at
concrete inputs. -/
def zeroCtx (nY : ℕ) (tol : ℚ) : LCCtx :=
  { nY := nY, nE := 1, tau := 1, nD := 1,
    Cxx := [[0]],
    Cyx := fun _ _ _ _ => 0,
    CyyT := fun _ _ _ _ _ => 0,
    rank := 1, tol := tol, maxIter := 100, syopt := none,
    whitenX := fun _ => [[0]], whitenY := fun _ => [[0]], svdO := ceSvd,
    pinv := pinvDiag, sq := sqId }

/-! Helper lemmas about the list linear algebra. -/

theorem vget_mkVec {n i : ℕ} (f : ℕ → ℚ) (h : i < n) : vget (mkVec n f) i = f i := by
  unfold vget mkVec
  rw [List.getD_eq_getElem _ _ (by simpa using h), List.getElem_map]
  simp

theorem vget_mkVec_ge {n i : ℕ} (f : ℕ → ℚ) (h : n ≤ i) : vget (mkVec n f) i = 0 := by
  unfold vget mkVec
  rw [List.getD_eq_getElem?_getD, List.getElem?_eq_none (by simpa using h)]
  rfl

theorem mkVec_length (n : ℕ) (f : ℕ → ℚ) : (mkVec n f).length = n := by
  simp [mkVec]

theorem mkMat_length (m n : ℕ) (f : ℕ → ℕ → ℚ) : (mkMat m n f).length = m := by
  simp [mkMat, mkVec]

theorem listSum_mkVec (n : ℕ) (f : ℕ → ℚ) : listSum (mkVec n f) = sumTo n f := rfl

theorem sumTo_zero (f : ℕ → ℚ) : sumTo 0 f = 0 := rfl

theorem sumTo_succ (n : ℕ) (f : ℕ → ℚ) : sumTo (n + 1) f = sumTo n f + f n := by
  unfold sumTo
  rw [List.range_succ, List.map_append, List.sum_append]
  simp

theorem sumTo_congr {n : ℕ} {f g : ℕ → ℚ} (h : ∀ i < n, f i = g i) :
    sumTo n f = sumTo n g := by
  induction n with
  | zero => rfl
  | succ m ih =>
    rw [sumTo_succ, sumTo_succ, ih (fun i hi => h i (by omega)), h m (by omega)]

theorem sumTo_nonneg {n : ℕ} {f : ℕ → ℚ} (h : ∀ i < n, 0 ≤ f i) : 0 ≤ sumTo n f := by
  induction n with
  | zero => exact le_refl 0
  | succ m ih =>
    rw [sumTo_succ]
    have h1 := ih (fun i hi => h i (by omega))
    have h2 := h m (by omega)
    linarith

theorem sumTo_mono {n : ℕ} {f g : ℕ → ℚ} (h : ∀ i < n, f i ≤ g i) :
    sumTo n f ≤ sumTo n g := by
  induction n with
  | zero => exact le_refl 0
  | succ m ih =>
    rw [sumTo_succ, sumTo_succ]
    have h1 := ih (fun i hi => h i (by omega))
    have h2 := h m (by omega)
    linarith

theorem sumTo_div (n : ℕ) (f : ℕ → ℚ) (a : ℚ) :
    sumTo n (fun i => f i / a) = sumTo n f / a := by
  induction n with
  | zero => simp [sumTo]
  | succ m ih => rw [sumTo_succ, sumTo_succ, ih, add_div]

theorem sumTo_const (n : ℕ) (a : ℚ) : sumTo n (fun _ => a) = n * a := by
  induction n with
  | zero => simp [sumTo]
  | succ m ih =>
    rw [sumTo_succ, ih]
    push_cast
    ring

theorem sumTo_pos {n : ℕ} {f : ℕ → ℚ} {lb : ℚ} (hn : 1 ≤ n) (hlb : 0 < lb)
    (h : ∀ i < n, lb ≤ f i) : 0 < sumTo n f := by
  obtain ⟨m, rfl⟩ : ∃ m, n = m + 1 := ⟨n - 1, by omega⟩
  rw [sumTo_succ]
  have h1 : 0 ≤ sumTo m f :=
    sumTo_nonneg (fun i hi => le_trans hlb.le (h i (by omega)))
  have h2 := h m (by omega)
  linarith

theorem listSum_replicate (n : ℕ) (a : ℚ) : listSum (List.replicate n a) = n * a := by
  unfold listSum
  rw [List.sum_replicate, nsmul_eq_mul]

theorem vget_replicate {n i : ℕ} (a : ℚ) (h : i < n) :
    vget (List.replicate n a) i = a := by
  unfold vget
  rw [List.getD_eq_getElem _ _ (by simpa using h), List.getElem_replicate]

theorem vget_map {l : List ℚ} {i : ℕ} (f : ℚ → ℚ) (h : i < l.length) :
    vget (l.map f) i = f (vget l i) := by
  unfold vget
  rw [List.getD_eq_getElem _ _ (by simpa using h), List.getD_eq_getElem _ _ h,
    List.getElem_map]

theorem init_le_foldl_max : ∀ (t : List ℚ) (a : ℚ), a ≤ t.foldl max a
  | [], a => le_refl a
  | b :: t, a => le_trans (le_max_left a b) (init_le_foldl_max t (max a b))

theorem mem_le_foldl_max : ∀ (t : List ℚ) (a x : ℚ), x ∈ t → x ≤ t.foldl max a
  | [], _, x, hx => absurd hx (List.not_mem_nil x)
  | b :: t, a, x, hx => by
    rcases List.mem_cons.1 hx with rfl | hx
    · exact le_trans (le_max_right a x) (init_le_foldl_max t (max a x))
    · exact mem_le_foldl_max t (max a b) x hx

theorem le_listMax {l : List ℚ} {x : ℚ} (h : x ∈ l) : x ≤ listMax l := by
  cases l with
  | nil => cases h
  | cons a t =>
    unfold listMax
    rcases List.mem_cons.1 h with rfl | hx
    · exact init_le_foldl_max t x
    · exact mem_le_foldl_max t a x hx

theorem foldl_max_mem : ∀ (t : List ℚ) (a : ℚ), t.foldl max a = a ∨ t.foldl max a ∈ t
  | [], _ => Or.inl rfl
  | b :: t, a => by
    rcases foldl_max_mem t (max a b) with h | h
    · rcases max_choice a b with hm | hm
      · left
        rw [List.foldl_cons, h, hm]
      · right
        rw [List.foldl_cons, h, hm]
        exact List.mem_cons_self b t
    · right
      exact List.mem_cons_of_mem b h

theorem listMax_mem {l : List ℚ} (h : l ≠ []) : listMax l ∈ l := by
  cases l with
  | nil => exact absurd rfl h
  | cons a t =>
    show t.foldl max a ∈ a :: t
    rcases foldl_max_mem t a with h1 | h1
    · rw [h1]
      exact List.mem_cons_self a t
    · exact List.mem_cons_of_mem a h1

theorem le_foldl_min : ∀ (t : List ℚ) (a q : ℚ), q ≤ a → (∀ x ∈ t, q ≤ x) →
    q ≤ t.foldl min a
  | [], _, _, ha, _ => ha
  | b :: t, a, q, ha, h =>
    le_foldl_min t (min a b) q (le_min ha (h b (List.mem_cons_self b t)))
      (fun x hx => h x (List.mem_cons_of_mem b hx))

theorem le_listMin {l : List ℚ} {q : ℚ} (hne : l ≠ []) (h : ∀ x ∈ l, q ≤ x) :
    q ≤ listMin l := by
  cases l with
  | nil => exact absurd rfl hne
  | cons a t =>
    unfold listMin
    exact le_foldl_min t a q (h a (List.mem_cons_self a t))
      (fun x hx => h x (List.mem_cons_of_mem a hx))

/-- C1: the claim states that for every PSD nonzero `Cyy_reduced` and every
supported solver mode, `nonneglsopt` returns a nonnegative vector summing
to 1 after the final clamp and renormalisation.  The code contradicts
this: the supported modes `'expgrad'` and `'gd'` reference the name `eta`,
which is not defined in `nonneglsopt`'s scope (it is a parameter of
`levelsCCA_cov` that is never passed down), so on any nonzero Gram matrix
they raise `NameError` instead of returning a vector.  This theorem
evaluates the embedded solver at the failing input
`C_xx=0, C_yx=[0], C_yy=[[1]], s=[1]`. -/
theorem c1_eta_undefined_modes_error :
    nonneglsoptD pinvDiag 0 [0] [[1]] [1] (some expgradStr) = .error .nameErr ∧
    nonneglsoptD pinvDiag 0 [0] [[1]] [1] (some gdStr) = .error .nameErr := by
  with_unfolding_all decide

/-- C4: if the reduced Gram matrix passed to `nonneglsopt` is identically
zero, the solver returns the input `s` unchanged, exactly, for every
initial weight vector and every supported solver mode — the degenerate
early return at source lines 180-181 precedes the ridge, the iteration and
the final clamp. -/
theorem c4_zero_gram_returns_input (pinv : List (List ℚ) → List (List ℚ))
    (cxx : ℚ) (cyx : List ℚ) (cyy : List (List ℚ)) (s : List ℚ)
    (syopt : Option String) (hmode : syopt ∈ supportedOpts)
    (hz : allZeroM cyy) :
    nonneglsoptD pinv cxx cyx cyy s syopt = .ok s := by
  simp only [nonneglsoptD, nonneglsopt, if_pos hz]

/-- C4 witness at a concrete degenerate input. -/
theorem c4_witness :
    nonneglsoptD pinvDiag 0 [0, 0] [[0, 0], [0, 0]] [1 / 3, 1 / 3]
      (some negridgeStr) = .ok [1 / 3, 1 / 3] :=
  c4_zero_gram_returns_input pinvDiag 0 [0, 0] [[0, 0], [0, 0]] [1 / 3, 1 / 3]
    (some negridgeStr) (by with_unfolding_all decide) (by with_unfolding_all decide)

/-- C10: the degenerate zero-Gram early return bypasses both the
sub-solver-mode validation and the final clamp-and-renormalise step: for
any `syopt`, any solver parameters, and any `s` (even one with negative
entries or a sum different from 1), an all-zero `C_yy` yields `.ok s`
exactly, and no error is raised. -/
theorem c10_zero_gram_bypasses_validation (pinv : List (List ℚ) → List (List ℚ))
    (cxx : ℚ) (cyx : List ℚ) (cyy : List (List ℚ)) (s : List ℚ)
    (syopt : Option String) (maxIter : ℕ) (tol ridge eps : ℚ)
    (hz : allZeroM cyy) :
    nonneglsopt pinv cxx cyx cyy s syopt maxIter tol ridge eps = .ok s := by
  simp only [nonneglsopt, if_pos hz]

/-- C10 witness: an unknown mode string together with a negative,
non-normalised `s` still comes back unchanged with no error. -/
theorem c10_witness :
    nonneglsopt pinvDiag 0 [0, 0] [[0, 0], [0, 0]] [-5, 3] (some bogusStr) 30
      (1 / 10 ^ 4) (1 / 10 ^ 4) (1 / 10 ^ 3) = .ok [-5, 3] ∧
    vget [-5, 3] 0 < 0 ∧ listSum [-5, 3] ≠ 1 :=
  ⟨c10_zero_gram_bypasses_validation pinvDiag 0 [0, 0] [[0, 0], [0, 0]] [-5, 3]
      (some bogusStr) 30 (1 / 10 ^ 4) (1 / 10 ^ 4) (1 / 10 ^ 3)
      (by with_unfolding_all decide),
    by with_unfolding_all decide, by with_unfolding_all decide⟩

/-- C5 counterexample: the claim says an unknown sub-solver mode string
causes an immediate error "for every input", but when the reduced Gram
matrix is identically zero the degenerate early return fires first and
the unknown mode `'frobnicate'` is silently accepted. -/
theorem c5_counterexample :
    nonneglsoptD pinvDiag 0 [0, 0] [[0, 0], [0, 0]] [7, -2] (some bogusStr) =
      .ok [7, -2] := by
  with_unfolding_all decide

/-- C5 (amended): an unknown sub-solver mode string passed to
`nonneglsopt` causes an immediate `ValueError` — provided the reduced
Gram matrix is not identically zero (the degenerate early return
otherwise bypasses validation, see C10).  The error is raised in the
first loop iteration, before any update is applied. -/
theorem c5_unknown_mode_errors (pinv : List (List ℚ) → List (List ℚ))
    (cxx : ℚ) (cyx : List ℚ) (cyy : List (List ℚ)) (s : List ℚ) (str : String)
    (hnz : ¬ allZeroM cyy) (hstr : str ∉ supportedStrs) :
    nonneglsoptD pinv cxx cyx cyy s (some str) = .error (.unknownOpt str) := by
  simp only [supportedStrs, List.mem_cons, List.not_mem_nil, or_false, not_or] at hstr
  obtain ⟨h1, h2, h3, h4, h5, h6, h7⟩ := hstr
  simp only [nonneglsoptD, nonneglsopt, if_neg hnz, Option.getD_some]
  rw [show (30 : ℕ) = 29 + 1 from rfl]
  simp only [nnLoop, nnUpdate, if_neg h1, if_neg h2, if_neg h3, if_neg h4, if_neg h5,
    if_neg (by simp [h6, h7] : ¬ (str = irwlsStr ∨ str = negridgeStr))]

/-- C5 witness: with a nonzero Gram matrix, the unknown mode
`'frobnicate'` produces the `ValueError` immediately. -/
theorem c5_witness :
    nonneglsoptD pinvDiag 0 [0] [[1]] [1] (some bogusStr) =
      .error (.unknownOpt bogusStr) :=
  c5_unknown_mode_errors pinvDiag 0 [0] [[1]] [1] bogusStr
    (by with_unfolding_all decide) (by with_unfolding_all decide)

/-- C6 counterexample: the claim says the objective is initialised to the
"+infinity sentinel" before the first iteration; the code initialises
`J = 1e9` (source line 81), a finite rational that, e.g., `1e9 + 1`
already exceeds — so the sentinel is not an upper bound of all attainable
objective values. -/
theorem c6_counterexample :
    levelsCCA_initJ = 10 ^ 9 ∧ levelsCCA_initJ < 10 ^ 9 + 1 := by
  constructor
  · rfl
  · norm_num [levelsCCA_initJ]

/-- C6 (amended): at the start of a `levelsCCA_cov` run the weight vector
is initialised uniformly to `1/nY` in every entry when no seed is
supplied (and a supplied seed is used as-is), and the objective is
initialised to the finite sentinel `1e9` (not `+infinity`); for `nY ≥ 1`
the uniform initial weighting sums to 1. -/
theorem c6_initialization :
    levelsCCA_initJ = 10 ^ 9 ∧
    (∀ nY : ℕ, levelsCCA_initS nY none = List.replicate nY (1 / (nY : ℚ))) ∧
    (∀ (nY : ℕ) (s : List ℚ), levelsCCA_initS nY (some s) = s) ∧
    (∀ nY : ℕ, 1 ≤ nY → (∀ i < nY, vget (levelsCCA_initS nY none) i = 1 / (nY : ℚ)) ∧
      listSum (levelsCCA_initS nY none) = 1) := by
  refine ⟨rfl, fun _ => rfl, fun _ _ => rfl, fun nY hnY => ⟨?_, ?_⟩⟩
  · intro i hi
    exact vget_replicate _ hi
  · show listSum (List.replicate nY (1 / (nY : ℚ))) = 1
    rw [listSum_replicate]
    have : (nY : ℚ) ≠ 0 := Nat.cast_ne_zero.2 (by omega)
    field_simp

/-- C6 witness: the initialisation evaluated at `nY = 4`. -/
theorem c6_witness :
    levelsCCA_initS 4 none = [1 / 4, 1 / 4, 1 / 4, 1 / 4] ∧
    listSum (levelsCCA_initS 4 none) = 1 := by
  have h := c6_initialization
  refine ⟨?_, (h.2.2.2 4 (by omega)).2⟩
  rw [h.2.1 4]
  with_unfolding_all decide

/-- C9: the optimizer's inputs are read-only.  The store-passing versions
of `nonneglsopt` and `levelsCCA_cov`, which thread the caller-owned
arrays explicitly, return the store unchanged and compute the same result
as the pure embeddings: no statement writes through an input reference —
in particular the ridge is added to a copy of `C_yy`
(`C_yy = C_yy.copy() + np.eye(...)*ridge`, source line 184), and the only
mutated quantities (`S_y`, `J`, the `Js` trace) are loop-local state. -/
theorem c9_inputs_read_only (pinv : List (List ℚ) → List (List ℚ)) (cxx : ℚ)
    (st : NNStore) (syopt : Option String) (maxIter : ℕ) (tol ridge eps : ℚ)
    (c : LCCtx) (stL : LCStore) (seed : Option (List ℚ)) :
    (nonneglsoptSt pinv cxx st syopt maxIter tol ridge eps).1 = st ∧
    (nonneglsoptSt pinv cxx st syopt maxIter tol ridge eps).2 =
      nonneglsopt pinv cxx st.aCyx st.aCyy st.aS syopt maxIter tol ridge eps ∧
    (levelsCCA_covSt c stL seed).1 = stL ∧
    (levelsCCA_covSt c stL seed).2 =
      levelsCCA_cov { c with Cxx := stL.aCxx, Cyx := stL.aCyx, CyyT := stL.aCyyT }
        seed := by
  refine ⟨?_, ?_, rfl, rfl⟩
  · unfold nonneglsoptSt
    split
    · rfl
    · rfl
  · unfold nonneglsoptSt nonneglsopt
    split
    · rfl
    · rfl

/-- C7: the retained CCA components at source lines 112-117: the kept
index list has length `min(rank, number of singular values)` (never
padded), the kept singular values are in descending order, every kept
index is in range, and every singular value that is dropped is at most
every one that is kept (so the kept ones are the `r` largest). -/
theorem c7_rank_truncation (rank : ℕ) (l : List ℚ) (hrank : 1 ≤ rank) :
    (selectTopRank rank l).length = min l.length rank ∧
    ((selectTopRank rank l).map (fun i => vget l i)).Sorted (fun a b => b ≤ a) ∧
    (∀ i ∈ selectTopRank rank l, i < l.length) ∧
    (∀ j < l.length, j ∉ selectTopRank rank l →
      vget l j ≤ listMin ((selectTopRank rank l).map (fun i => vget l i))) := by
  haveI hTot : IsTotal ℕ (fun i j : ℕ => l.getD j 0 ≤ l.getD i 0) :=
    ⟨fun a b => le_total (l.getD b 0) (l.getD a 0)⟩
  haveI hTrans : IsTrans ℕ (fun i j : ℕ => l.getD j 0 ≤ l.getD i 0) :=
    ⟨fun _ _ _ hab hbc => le_trans hbc hab⟩
  have hperm : List.Perm (argsortDesc l) (List.range l.length) :=
    List.perm_insertionSort _ _
  have hsorted : List.Sorted (fun i j : ℕ => l.getD j 0 ≤ l.getD i 0) (argsortDesc l) :=
    List.sorted_insertionSort _ _
  have hlen : (argsortDesc l).length = l.length :=
    hperm.length_eq.trans (List.length_range _)
  have h1 : (selectTopRank rank l).length = min l.length rank := by
    unfold selectTopRank
    rw [List.length_take, hlen]
    exact Nat.min_eq_left (Nat.min_le_left _ _)
  have hselsorted : List.Sorted (fun i j : ℕ => l.getD j 0 ≤ l.getD i 0)
      (selectTopRank rank l) :=
    List.Pairwise.sublist (List.take_sublist _ _) hsorted
  refine ⟨h1, ?_, ?_, ?_⟩
  · exact List.pairwise_map.2 hselsorted
  · intro i hi
    exact List.mem_range.1 (hperm.subset ((List.take_sublist _ _).subset hi))
  · intro j hj hjnot
    have hjidx : j ∈ argsortDesc l := hperm.symm.subset (List.mem_range.2 hj)
    have hsplit := List.take_append_drop (min l.length rank) (argsortDesc l)
    have hjapp : j ∈ (argsortDesc l).take (min l.length rank) ++
        (argsortDesc l).drop (min l.length rank) := by
      rw [hsplit]
      exact hjidx
    have hjdrop : j ∈ (argsortDesc l).drop (min l.length rank) := by
      rcases List.mem_append.1 hjapp with h | h
      · exact absurd h hjnot
      · exact h
    have hpw : List.Pairwise (fun i j : ℕ => l.getD j 0 ≤ l.getD i 0)
        ((argsortDesc l).take (min l.length rank) ++
          (argsortDesc l).drop (min l.length rank)) := by
      rw [hsplit]
      exact hsorted
    have hrel := (List.pairwise_append.1 hpw).2.2
    apply le_listMin
    · have hne : (selectTopRank rank l).length ≠ 0 := by
        rw [h1]
        have hmin : 1 ≤ min l.length rank := Nat.le_min.2 ⟨by omega, hrank⟩
        omega
      intro hmapnil
      exact hne (List.length_eq_zero.2 (List.map_eq_nil_iff.1 hmapnil))
    · intro x hx
      obtain ⟨i, hi, rfl⟩ := List.mem_map.1 hx
      exact hrel i hi j hjdrop

/-- C7 witness: the selection evaluated at `rank = 2` and singular values
`[1, 3, 2]`: indices `[1, 2]` (values `3, 2`) are kept, and the dropped
value `1` at index 0 is at most the smallest kept value. -/
theorem c7_witness :
    (selectTopRank 2 [1, 3, 2]).length = min 3 2 ∧
    ((selectTopRank 2 [1, 3, 2]).map (fun i => vget [1, 3, 2] i)).Sorted
      (fun a b => b ≤ a) ∧
    (0 < 3 → 0 ∉ selectTopRank 2 [1, 3, 2] →
      vget [1, 3, 2] 0 ≤
        listMin ((selectTopRank 2 [1, 3, 2]).map (fun i => vget [1, 3, 2] i))) := by
  have h := c7_rank_truncation 2 [1, 3, 2] (by omega)
  exact ⟨h.1, h.2.1, h.2.2.2 0⟩

/-- C8: after the loop the returned `W`/`R` are the last-iteration
filters and responses scaled per component by `sq (l_k / max l_k)` — with
unit scaling (factor `sq 1 = 1` for every component) when the maximum
retained singular value is zero — and the component carrying the maximal
singular value receives factor exactly 1. -/
theorem c8_rescaling (sq : ℚ → ℚ) (l : List ℚ) (W : List (List ℚ))
    (R : List (List (List ℚ))) (hsq : sq 1 = 1) (h0 : 0 ≤ listMax l) :
    rescaleWR sq l W R =
      (scaleRows (claimFactors sq l) W, scaleRows3 (claimFactors sq l) R) ∧
    (listMax l = 0 → ∀ k < l.length, vget (claimFactors sq l) k = 1) ∧
    (l ≠ [] → vget l (idxOfMax l) = listMax l ∧
      (0 < listMax l → vget (claimFactors sq l) (idxOfMax l) = 1)) := by
  have key : (relScale l).map sq = claimFactors sq l := by
    rcases eq_or_lt_of_le h0 with hz | hp
    · rw [relScale, if_neg (by rw [← hz]; exact lt_irrefl 0), claimFactors,
        if_pos hz.symm, List.map_map]
      have hc : (sq ∘ fun _ : ℚ => (1 : ℚ)) = fun _ : ℚ => (1 : ℚ) := by
        funext x
        simp [Function.comp, hsq]
      rw [hc, List.map_const']
    · rw [relScale, if_pos hp, claimFactors, if_neg (ne_of_gt hp), List.map_map]
      rfl
  refine ⟨by rw [rescaleWR, key], fun hz k hk => ?_, fun hne => ?_⟩
  · rw [claimFactors, if_pos hz]
    exact vget_replicate _ hk
  · have hidx : l.indexOf (listMax l) < l.length :=
      List.indexOf_lt_length.2 (listMax_mem hne)
    have hidx2 : idxOfMax l < l.length := hidx
    have hv : vget l (idxOfMax l) = listMax l := by
      unfold idxOfMax vget
      rw [List.getD_eq_getElem _ _ hidx, List.getElem_indexOf]
    refine ⟨hv, fun hp => ?_⟩
    rw [claimFactors, if_neg (ne_of_gt hp), vget_map _ hidx2, hv,
      div_self (ne_of_gt hp), hsq]

/-- C8 witness: the rescaling evaluated at `l = [4, 1]` with an exact
square root on the relative values `1` and `1/4`: the first row is
unscaled and the second is halved. -/
theorem c8_witness :
    rescaleWR sqW [4, 1] [[2], [3]] [[[6]], [[10]]] =
      (scaleRows (claimFactors sqW [4, 1]) [[2], [3]],
        scaleRows3 (claimFactors sqW [4, 1]) [[[6]], [[10]]]) ∧
    vget [4, 1] (idxOfMax [4, 1]) = listMax [4, 1] ∧
    vget (claimFactors sqW [4, 1]) (idxOfMax [4, 1]) = 1 ∧
    rescaleWR sqW [4, 1] [[2], [3]] [[[6]], [[10]]] =
      ([[2], [3 / 2]], [[[6]], [[5]]]) := by
  have h := c8_rescaling sqW [4, 1] [[2], [3]] [[[6]], [[10]]]
    (by with_unfolding_all decide) (by with_unfolding_all decide)
  have h3 := h.2.2 (by with_unfolding_all decide)
  refine ⟨h.1, h3.1, h3.2 (by with_unfolding_all decide), ?_⟩
  with_unfolding_all decide

theorem sumTo_add (n : ℕ) (f g : ℕ → ℚ) :
    sumTo n (fun i => f i + g i) = sumTo n f + sumTo n g := by
  induction n with
  | zero => simp [sumTo]
  | succ m ih =>
    rw [sumTo_succ, sumTo_succ, sumTo_succ, ih]
    ring

theorem nnUpdate_completing (nn : ℕ) (pinv : List (List ℚ) → List (List ℚ))
    (cyx : List ℚ) (cyy : List (List ℚ)) (opt : String) (s : List ℚ)
    (h : opt ∈ completingStrs) :
    ∃ out, nnUpdate nn pinv cyx cyy opt s = .ok out := by
  simp only [completingStrs, List.mem_cons, List.not_mem_nil, or_false] at h
  rcases h with rfl | rfl | rfl | rfl | rfl
  · exact ⟨_, by rw [nnUpdate, if_pos rfl]⟩
  · exact ⟨_, by rw [nnUpdate, if_neg (by decide), if_pos rfl]⟩
  · exact ⟨_, by rw [nnUpdate, if_neg (by decide), if_neg (by decide),
      if_neg (by decide), if_neg (by decide), if_pos rfl]⟩
  · exact ⟨_, by rw [nnUpdate, if_neg (by decide), if_neg (by decide),
      if_neg (by decide), if_neg (by decide), if_neg (by decide),
      if_pos (Or.inl rfl)]⟩
  · exact ⟨_, by rw [nnUpdate, if_neg (by decide), if_neg (by decide),
      if_neg (by decide), if_neg (by decide), if_neg (by decide),
      if_pos (Or.inr rfl)]⟩

theorem nnLoop_completing (nn : ℕ) (pinv : List (List ℚ) → List (List ℚ))
    (eps tol cxx : ℚ) (cyx : List ℚ) (cyy : List (List ℚ)) (opt : String)
    (h : opt ∈ completingStrs) (fuel : ℕ) :
    ∀ (s : List ℚ) (J : ℚ),
      ∃ out, nnLoop nn pinv eps tol cxx cyx cyy opt fuel s J = .ok out := by
  induction fuel with
  | zero => exact fun s _ => ⟨s, rfl⟩
  | succ m ih =>
    intro s J
    obtain ⟨u, hu⟩ := nnUpdate_completing nn pinv cyx cyy opt s h
    simp only [nnLoop, hu]
    split
    · exact ⟨_, rfl⟩
    · exact ih _ _

theorem nonneglsoptD_completing (pinv : List (List ℚ) → List (List ℚ)) (cxx : ℚ)
    (cyx : List ℚ) (cyy : List (List ℚ)) (s : List ℚ) (syopt : Option String)
    (h : syopt ∈ completingOpts) :
    ∃ out, nonneglsoptD pinv cxx cyx cyy s syopt = .ok out ∧
      (out = s ∨ (listSum out = 1 ∧ (∀ i, 0 ≤ vget out i) ∧
        ∃ g, out = mkVec cyy.length g)) := by
  have hstr : syopt.getD negridgeStr ∈ completingStrs := by
    simp only [completingOpts, List.mem_cons, List.not_mem_nil, or_false] at h
    rcases h with rfl | rfl | rfl | rfl | rfl | rfl <;> simp [completingStrs]
  simp only [nonneglsoptD, nonneglsopt]
  split
  · exact ⟨s, rfl, Or.inl rfl⟩
  · rename_i hnz
    have hcne : cyy ≠ [] := by
      rintro rfl
      exact hnz (fun r hr => absurd hr (List.not_mem_nil r))
    have hnn : 1 ≤ cyy.length := List.length_pos.2 hcne
    obtain ⟨s1, hs1⟩ := nnLoop_completing cyy.length pinv (1 / 10 ^ 3) (1 / 10 ^ 4)
      cxx cyx
      (mkMat cyy.length cyy.length (fun i j =>
        mget cyy i j + (if i = j then 1 / 10 ^ 4 else 0)))
      (syopt.getD negridgeStr) hstr 30 s
      (objQ cyy.length cxx cyx
        (mkMat cyy.length cyy.length (fun i j =>
          mget cyy i j + (if i = j then 1 / 10 ^ 4 else 0))) s)
    rw [hs1]
    have hT : 0 < listSum (mkVec cyy.length (fun i => max (1 / 10 ^ 6) (vget s1 i))) := by
      rw [listSum_mkVec]
      exact sumTo_pos hnn (by norm_num)
        (fun i hi => le_max_left _ _)
    refine ⟨_, rfl, Or.inr ⟨?_, ?_, _, rfl⟩⟩
    · rw [listSum_mkVec, sumTo_div]
      have hnum : sumTo cyy.length
          (vget (mkVec cyy.length fun i => max (1 / 10 ^ 6) (vget s1 i))) =
          listSum (mkVec cyy.length fun i => max (1 / 10 ^ 6) (vget s1 i)) := by
        rw [listSum_mkVec]
        exact sumTo_congr (fun i hi => vget_mkVec _ hi)
      rw [hnum]
      exact div_self (ne_of_gt hT)
    · intro i
      rcases lt_or_le i cyy.length with hi | hi
      · rw [vget_mkVec _ hi]
        refine div_nonneg ?_ hT.le
        rw [vget_mkVec _ hi]
        exact le_trans (by norm_num) (le_max_left _ _)
      · rw [vget_mkVec_ge _ hi]

theorem lcStep_ok_spec (c : LCCtx) (CyyF : ℕ → ℕ → ℕ → ℕ → ℕ → ℕ → ℚ)
    (CyxW : ℕ → ℕ → ℕ → ℕ → ℚ) (isqrtCxx : List (List ℚ)) (rankA : ℕ)
    (st st1 : LCState) (h : lcStep c CyyF CyxW isqrtCxx rankA st = .ok st1) :
    st1.iters = st.iters + 1 ∧
    st1.trace = st.trace ++ [(st1.Jpre, st1.J)] ∧
    st1.Jpre = objQ c.nY st1.wCxxw st1.rCyxw st1.rCyyr st.S ∧
    st1.J = objQ c.nY st1.wCxxw st1.rCyxw st1.rCyyr st1.S ∧
    st1.rCyyr.length = c.nY ∧
    ∃ S1, nonneglsoptD c.pinv st1.wCxxw st1.rCyxw st1.rCyyr st.S c.syopt = .ok S1 ∧
      st1.S = mkVec c.nY (fun i => vget S1 i / listSum S1) ∧
      st1.deltaS = sumTo c.nY (fun i => |vget st1.S i - vget st.S i|) := by
  simp only [lcStep] at h
  split at h
  · exact absurd h (by simp)
  · rename_i S1 heq
    rw [Except.ok.injEq] at h
    subst h
    refine ⟨rfl, rfl, rfl, rfl, mkMat_length _ _ _, S1, heq, rfl, rfl⟩

theorem lcStep_no_error (c : LCCtx) (CyyF : ℕ → ℕ → ℕ → ℕ → ℕ → ℕ → ℚ)
    (CyxW : ℕ → ℕ → ℕ → ℕ → ℚ) (isqrtCxx : List (List ℚ)) (rankA : ℕ)
    (st : LCState) (h : c.syopt ∈ completingOpts) :
    ∃ st1, lcStep c CyyF CyxW isqrtCxx rankA st = .ok st1 := by
  simp only [lcStep]
  split
  · rename_i e heq
    obtain ⟨out, hout, -⟩ := nonneglsoptD_completing c.pinv _ _ _ st.S c.syopt h
    rw [heq] at hout
    exact absurd hout (by simp)
  · exact ⟨_, rfl⟩

theorem lcLoop_iters_le (c : LCCtx) (CyyF : ℕ → ℕ → ℕ → ℕ → ℕ → ℕ → ℚ)
    (CyxW : ℕ → ℕ → ℕ → ℕ → ℚ) (isqrtCxx : List (List ℚ)) (rankA : ℕ)
    (fuel : ℕ) :
    ∀ st st1 : LCState, lcLoop c CyyF CyxW isqrtCxx rankA fuel st = .ok st1 →
      st1.iters ≤ st.iters + fuel := by
  induction fuel with
  | zero =>
    intro st st1 h
    have he : st = st1 := by simpa [lcLoop] using h
    rw [← he]
    omega
  | succ m ih =>
    intro st st1 h
    simp only [lcLoop] at h
    split at h
    · exact absurd h (by simp)
    · rename_i stA heq
      have hiter := (lcStep_ok_spec c CyyF CyxW isqrtCxx rankA st stA heq).1
      split at h
      · rw [Except.ok.injEq] at h
        subst h
        omega
      · have := ih stA st1 h
        omega

theorem lcLoop_early_exit (c : LCCtx) (CyyF : ℕ → ℕ → ℕ → ℕ → ℕ → ℕ → ℚ)
    (CyxW : ℕ → ℕ → ℕ → ℕ → ℚ) (isqrtCxx : List (List ℚ)) (rankA : ℕ)
    (fuel : ℕ) :
    ∀ st st1 : LCState, lcLoop c CyyF CyxW isqrtCxx rankA fuel st = .ok st1 →
      st1.iters < st.iters + fuel →
      st1.deltaS < c.tol ∨ st1.deltaJ < c.tol := by
  induction fuel with
  | zero =>
    intro st st1 h hlt
    have he : st = st1 := by simpa [lcLoop] using h
    rw [← he] at hlt
    omega
  | succ m ih =>
    intro st st1 h hlt
    simp only [lcLoop] at h
    split at h
    · exact absurd h (by simp)
    · rename_i stA heq
      have hiter := (lcStep_ok_spec c CyyF CyxW isqrtCxx rankA st stA heq).1
      split at h
      · rename_i hcond
        rw [Except.ok.injEq] at h
        subst h
        exact hcond
      · exact ih stA st1 h (by omega)

theorem lcLoop_stops_at_first (c : LCCtx) (CyyF : ℕ → ℕ → ℕ → ℕ → ℕ → ℕ → ℚ)
    (CyxW : ℕ → ℕ → ℕ → ℕ → ℚ) (isqrtCxx : List (List ℚ)) (rankA fuel : ℕ)
    (st st1 : LCState) (hstep : lcStep c CyyF CyxW isqrtCxx rankA st = .ok st1)
    (hcond : st1.deltaS < c.tol ∨ st1.deltaJ < c.tol) :
    lcLoop c CyyF CyxW isqrtCxx rankA (fuel + 1) st = .ok st1 := by
  simp only [lcLoop, hstep]
  rw [if_pos hcond]

/-- C2 (amended): in every completed iteration of the main optimizer, the
pre-update objective `J_pre` and the post-update objective `J_post` are
computed by the same quadratic objective from the same reduced statistics
`wCxxw`, `rCyxw_y`, `rCyyr_yy` — `J_pre` with the previous `S_y` and
`J_post` with the updated `S_y` — and the pair is recorded in the trace;
however the weight update does not guarantee `J_post ≤ J_pre` (see the
counterexample). -/
theorem c2_pre_post_from_same_statistics (c : LCCtx)
    (CyyF : ℕ → ℕ → ℕ → ℕ → ℕ → ℕ → ℚ) (CyxW : ℕ → ℕ → ℕ → ℕ → ℚ)
    (isqrtCxx : List (List ℚ)) (rankA : ℕ) (st st1 : LCState)
    (h : lcStep c CyyF CyxW isqrtCxx rankA st = .ok st1) :
    st1.Jpre = objQ c.nY st1.wCxxw st1.rCyxw st1.rCyyr st.S ∧
    st1.J = objQ c.nY st1.wCxxw st1.rCyxw st1.rCyyr st1.S ∧
    st1.trace = st.trace ++ [(st1.Jpre, st1.J)] := by
  obtain ⟨-, h2, h3, h4, -, -⟩ := lcStep_ok_spec c CyyF CyxW isqrtCxx rankA st st1 h
  exact ⟨h3, h4, h2⟩

set_option maxRecDepth 100000 in
/-- C2 witness: the per-iteration objective bookkeeping evaluated on a
concrete one-output all-zero instance. -/
theorem c2_witness :
    (0 : ℚ) = objQ 1 0 [0] [[0]] [1] ∧
    (0 : ℚ) = objQ 1 0 [0] [[0]] [1] ∧
    [((0 : ℚ), (0 : ℚ))] = ([] : List (ℚ × ℚ)) ++ [(0, 0)] := by
  have h := c2_pre_post_from_same_statistics (zeroCtx 1 (1 / 10 ^ 3))
    (fun _ _ _ _ _ _ => 0) (fun _ _ _ _ => 0) [[0]] 1
    ({ S := [1], J := 10 ^ 9, Jpre := 0, wCxxw := 0, rCyxw := [], rCyyr := [],
       trace := [], Wl := [], Rl := [], ll := [], deltaS := 0, deltaJ := 0,
       iters := 0 } : LCState)
    ({ S := [1], J := 0, Jpre := 0, wCxxw := 0, rCyxw := [0], rCyyr := [[0]],
       trace := [(0, 0)], Wl := [[0]], Rl := [[[0]]], ll := [0], deltaS := 0,
       deltaJ := 10 ^ 9, iters := 1 } : LCState)
    (by with_unfolding_all rfl)
  exact h

set_option maxRecDepth 100000 in
/-- C2 counterexample: a full concrete run in which iteration 1 records
`J_pre = 0` and `J_post = 1/4`, so the weight update increased the reduced
problem's objective.  The oracle outputs used by the run are certified:
the whiteners invert the matrices they receive, the SVD is exact, and the
pseudo-inverses invert the ridged Gram matrices the solver builds. -/
theorem c2_counterexample :
    c2run.toOption.isSome = true ∧
    c2pair = (0, 1 / 4) ∧
    (0 : ℚ) < 1 / 4 ∧
    whitenerOK [[1]] (ceWhiten [[1]]) ∧
    whitenerOK [[4]] (ceWhiten [[4]]) ∧
    svdOK 1 1 [[1]] (ceSvd [[1]]) ∧
    pinvOK [[1 / 4 + 1 / 10 ^ 4]] (pinvDiag [[1 / 4 + 1 / 10 ^ 4]]) ∧
    pinvOK [[1 + 1 / 10 ^ 4]] (pinvDiag [[1 + 1 / 10 ^ 4]]) := by
  refine ⟨?_, ?_, ?_, ?_, ?_, ?_, ?_, ?_⟩ <;> with_unfolding_all decide

theorem levelsCCA_cov_one_iter (c : LCCtx) (htol : c.tol = 10 ^ 9)
    (hopt : c.syopt ∈ completingOpts) (hnY : 1 ≤ c.nY) (hmax : 1 ≤ c.maxIter) :
    (levelsCCA_cov c none).toOption.map LCResult.iters = some 1 := by
  have hcast : ((c.nY : ℚ)) ≠ 0 := Nat.cast_ne_zero.2 (by omega)
  simp only [levelsCCA_cov]
  obtain ⟨m, hm⟩ : ∃ m, c.maxIter = m + 1 := ⟨c.maxIter - 1, by omega⟩
  obtain ⟨st1, hstep⟩ := lcStep_no_error c (Cyy_tyeye_diag2full c.tau c.CyyT)
    (fun y e t f => sumTo c.nD (fun d => c.Cyx y e t d * mget (c.whitenX c.Cxx) d f))
    (c.whitenX c.Cxx) (max 1 c.rank)
    ({ S := levelsCCA_initS c.nY none, J := levelsCCA_initJ, Jpre := 0,
       wCxxw := 0, rCyxw := [], rCyyr := [], trace := [], Wl := [], Rl := [],
       ll := [], deltaS := 0, deltaJ := 0, iters := 0 } : LCState) hopt
  obtain ⟨hiters, -, -, -, hrlen, S1, hsolve, hS, hdS⟩ :=
    lcStep_ok_spec c (Cyy_tyeye_diag2full c.tau c.CyyT)
      (fun y e t f => sumTo c.nD (fun d => c.Cyx y e t d * mget (c.whitenX c.Cxx) d f))
      (c.whitenX c.Cxx) (max 1 c.rank)
      ({ S := levelsCCA_initS c.nY none, J := levelsCCA_initJ, Jpre := 0,
         wCxxw := 0, rCyxw := [], rCyyr := [], trace := [], Wl := [], Rl := [],
         ll := [], deltaS := 0, deltaJ := 0, iters := 0 } : LCState) st1 hstep
  have hsolve2 : nonneglsoptD c.pinv st1.wCxxw st1.rCyxw st1.rCyyr
      (levelsCCA_initS c.nY none) c.syopt = .ok S1 := hsolve
  have hdS2 : st1.deltaS =
      sumTo c.nY (fun i => |vget st1.S i - vget (levelsCCA_initS c.nY none) i|) := hdS
  obtain ⟨out, hout, hprop⟩ := nonneglsoptD_completing c.pinv st1.wCxxw st1.rCyxw
    st1.rCyyr (levelsCCA_initS c.nY none) c.syopt hopt
  rw [hsolve2] at hout
  have hout2 : S1 = out := by
    simpa using hout
  rw [← hout2] at hprop
  have hinit : ∀ i < c.nY, vget (levelsCCA_initS c.nY none) i = 1 / (c.nY : ℚ) := by
    intro i hi
    simp only [levelsCCA_initS, Option.getD_none]
    exact vget_replicate _ hi
  have hbound : st1.deltaS ≤ 2 := by
    rcases hprop with hS1 | ⟨hsum, hpos, g, hshape⟩
    · have hsum : listSum S1 = 1 := by
        rw [hS1]
        simp only [levelsCCA_initS, Option.getD_none]
        rw [listSum_replicate]
        field_simp
      have hz : st1.deltaS = 0 := by
        rw [hdS2]
        have hcg : ∀ i < c.nY,
            |vget st1.S i - vget (levelsCCA_initS c.nY none) i| = 0 := by
          intro i hi
          rw [hS, vget_mkVec _ hi, hsum, div_one, hS1, sub_self, abs_zero]
        rw [sumTo_congr hcg, sumTo_const]
        ring
      rw [hz]
      norm_num
    · rw [hrlen] at hshape
      have hget : ∀ i < c.nY, vget st1.S i = vget S1 i := by
        intro i hi
        rw [hS, vget_mkVec _ hi, hsum, div_one]
      have hS1sum : sumTo c.nY (fun i => vget S1 i) = 1 := by
        have hcg : ∀ i < c.nY, vget S1 i = g i := by
          intro i hi
          rw [hshape]
          exact vget_mkVec _ hi
        rw [sumTo_congr hcg, ← listSum_mkVec, ← hshape, hsum]
      have hterm : ∀ i < c.nY,
          |vget st1.S i - vget (levelsCCA_initS c.nY none) i| ≤
            vget S1 i + 1 / (c.nY : ℚ) := by
        intro i hi
        rw [hget i hi, hinit i hi]
        refine le_trans (abs_sub _ _) ?_
        rw [abs_of_nonneg (hpos i),
          abs_of_nonneg (div_nonneg zero_le_one (Nat.cast_nonneg _))]
      have h2 : sumTo c.nY (fun i => vget S1 i + 1 / (c.nY : ℚ)) = 2 := by
        rw [sumTo_add, hS1sum, sumTo_const, mul_one_div, div_self hcast]
        norm_num
      rw [hdS2]
      calc sumTo c.nY (fun i => |vget st1.S i - vget (levelsCCA_initS c.nY none) i|)
          ≤ sumTo c.nY (fun i => vget S1 i + 1 / (c.nY : ℚ)) := sumTo_mono hterm
        _ = 2 := h2
  have hlt : st1.deltaS < c.tol := by
    rw [htol]
    calc st1.deltaS ≤ 2 := hbound
      _ < 10 ^ 9 := by norm_num
  rw [hm, lcLoop_stops_at_first c (Cyy_tyeye_diag2full c.tau c.CyyT)
    (fun y e t f => sumTo c.nD (fun d => c.Cyx y e t d * mget (c.whitenX c.Cxx) d f))
    (c.whitenX c.Cxx) (max 1 c.rank) m
    ({ S := levelsCCA_initS c.nY none, J := levelsCCA_initJ, Jpre := 0,
       wCxxw := 0, rCyxw := [], rCyyr := [], trace := [], Wl := [], Rl := [],
       ll := [], deltaS := 0, deltaJ := 0, iters := 0 } : LCState) st1 hstep
    (Or.inl hlt)]
  simp only [Except.toOption, Option.map]
  rw [hiters]

/-- C3 (amended): the main loop obeys the claimed exit discipline — it
never runs more than the remaining fuel (`max_iter` cap), an early exit
only happens when the last iteration's `deltaS_y < tol` or `deltaJ < tol`,
and the loop stops at the first iteration boundary where either
condition holds.  The claim's consequence "any inputs with `tol=1e9` stop
after exactly one iteration" is corrected: it holds for the default
uniform seed (and any completing solver mode), but a caller-supplied seed
with huge entries can force a second iteration (see the
counterexample). -/
theorem c3_termination (c : LCCtx) :
    (∀ (F : ℕ → ℕ → ℕ → ℕ → ℕ → ℕ → ℚ) (Wf : ℕ → ℕ → ℕ → ℕ → ℚ)
        (X : List (List ℚ)) (rA fuel : ℕ) (st st1 : LCState),
      lcLoop c F Wf X rA fuel st = .ok st1 →
        st1.iters ≤ st.iters + fuel ∧
        (st1.iters < st.iters + fuel →
          st1.deltaS < c.tol ∨ st1.deltaJ < c.tol)) ∧
    (∀ (F : ℕ → ℕ → ℕ → ℕ → ℕ → ℕ → ℚ) (Wf : ℕ → ℕ → ℕ → ℕ → ℚ)
        (X : List (List ℚ)) (rA fuel : ℕ) (st st1 : LCState),
      lcStep c F Wf X rA st = .ok st1 →
      (st1.deltaS < c.tol ∨ st1.deltaJ < c.tol) →
      lcLoop c F Wf X rA (fuel + 1) st = .ok st1) ∧
    (c.tol = 10 ^ 9 → c.syopt ∈ completingOpts → 1 ≤ c.nY → 1 ≤ c.maxIter →
      (levelsCCA_cov c none).toOption.map LCResult.iters = some 1) := by
  refine ⟨fun F Wf X rA fuel st st1 h => ⟨lcLoop_iters_le c F Wf X rA fuel st st1 h,
      lcLoop_early_exit c F Wf X rA fuel st st1 h⟩,
    fun F Wf X rA fuel st st1 hstep hcond =>
      lcLoop_stops_at_first c F Wf X rA fuel st st1 hstep hcond,
    fun htol hopt hnY hmax => levelsCCA_cov_one_iter c htol hopt hnY hmax⟩

/-- C3 witness: with `tol = 1e9`, the default uniform seed and the default
mode, a concrete all-zero-input run stops after exactly one iteration. -/
theorem c3_witness :
    (levelsCCA_cov (zeroCtx 1 (10 ^ 9)) none).toOption.map LCResult.iters =
      some 1 :=
  (c3_termination (zeroCtx 1 (10 ^ 9))).2.2 rfl
    (by simp [zeroCtx, completingOpts]) (by norm_num [zeroCtx])
    (by norm_num [zeroCtx])

set_option maxRecDepth 200000 in
/-- C3 counterexample: the claim says that for any inputs `tol=1e9`
performs exactly one iteration before stopping; this run — all-zero
covariances (the whiteners correctly degenerate to the all-zero whitener,
and the SVD of the zero matrix is exact) and the caller seed `[2e9]` —
executes two iterations: after iteration 1 the renormalised weight is
`[1]`, so `deltaS_y = |1 - 2e9| ≥ tol`, and `J = 0` gives
`deltaJ = |0 - 1e9| = 1e9`, which is not strictly below `tol`. -/
theorem c3_counterexample :
    c3run.toOption.map LCResult.iters = some 2 ∧
    ctxC3z.tol = 10 ^ 9 ∧
    ctxC3z.whitenX [[0]] = [[0]] ∧
    ctxC3z.whitenY [[0]] = [[0]] ∧
    svdOK 1 1 [[0]] (ceSvd [[0]]) := by
  refine ⟨?_, rfl, rfl, rfl, ?_⟩ <;> with_unfolding_all decide
